import Mathlib

set_option maxRecDepth 8000

/-!
Verification development for the Reminder & Scheduled-Notification Engine of
the personal-assistant bot (Go sources: `internal/reminder/scheduler.go`
(`Scheduler.tick`, `calculateNext`, `parseDayOfWeek`, `Scheduler.Stop`),
`internal/reminder/repository.go` (`GetDueReminders`, `UpdateRemindAt`,
`Deactivate`), and `internal/bot/daily_scheduler.go`
(`DailyScheduler.nextFirstOfMonth`, `DailyScheduler.Stop`)).

Time model: the process runs with a single fixed-offset timezone
(Asia/Jakarta, UTC+07:00, no daylight saving), so instants and local
wall-clock readings are in order-preserving bijection.  A timestamp is
modelled as an `Int`: the number of minutes since local 1970-01-01 00:00
(minute granularity is enough for everything the engine computes: all times
it constructs have second = nanosecond = 0).  `time.Date`, `Time.AddDate`,
`Time.Year/Month/Day/Hour/Minute/Weekday` are embedded by the standard
proleptic-Gregorian civil-calendar arithmetic (Howard Hinnant's
`days_from_civil` / `civil_from_days` algorithms), which is extensionally
the arithmetic the Go `time` package performs for a fixed-offset location,
including its normalisation of out-of-range month/day arguments by rolling
over (e.g. `time.Date(y, 4, 31, ...)` is May 1).
-/

/-- Days-before-year-of-era count used by civil-calendar arithmetic:
year-of-era `y` (March-based, `y ∈ [0, 399]`) starts on day `365*y + y/4 - y/100`
of its 400-year era. -/
def sY (y : Int) : Int := 365 * y + y / 4 - y / 100

/-- Last day-of-era belonging to year-of-era `y` (March-based year). -/
def eY (y : Int) : Int := if y = 399 then 146096 else sY (y + 1) - 1

/-- The year-of-era extraction polynomial of `civil_from_days`. -/
def aF (doe : Int) : Int := doe - doe / 1460 + doe / 36524 - doe / 146096

/-- Day-of-era (`[0, 146096]`) of civil day number `z` (days since 1970-01-01). -/
def doeOf (z : Int) : Int := (z + 719468) % 146097

/-- Era number of civil day number `z`. -/
def eraOf (z : Int) : Int := (z + 719468) / 146097

/-- Year-of-era containing day-of-era `doe`. -/
def yoeOfDoe (doe : Int) : Int := aF doe / 365

/-- Day-of-year (March-based, `[0, 365]`) of day-of-era `doe`. -/
def doyOfDoe (doe : Int) : Int := doe - sY (yoeOfDoe doe)

/-- March-based month index (`[0, 11]`, 0 = March) of a day-of-year. -/
def mpOfDoy (doy : Int) : Int := (5 * doy + 2) / 153

/-- Civil month (`[1, 12]`) of a day-of-era. -/
def monthFromDoe (doe : Int) : Int :=
  if mpOfDoy (doyOfDoe doe) < 10 then mpOfDoy (doyOfDoe doe) + 3
  else mpOfDoy (doyOfDoe doe) - 9

/-- Civil day-of-month of a day-of-era. -/
def dayFromDoe (doe : Int) : Int :=
  doyOfDoe doe - (153 * mpOfDoy (doyOfDoe doe) + 2) / 5 + 1

/-- Civil year of civil day number `z`. -/
def yearFromZ (z : Int) : Int :=
  (if monthFromDoe (doeOf z) ≤ 2 then yoeOfDoe (doeOf z) + 1 else yoeOfDoe (doeOf z))
    + eraOf z * 400

/-- Civil date `(year, month, day)` of civil day number `z`
(`civil_from_days`; the decomposition Go's `Time.Date()` performs). -/
def civilFromDays (z : Int) : Int × Int × Int :=
  (yearFromZ z, monthFromDoe (doeOf z), dayFromDoe (doeOf z))

/-- March-shifted year used by `days_from_civil`. -/
def yShift (y m : Int) : Int := if m ≤ 2 then y - 1 else y

/-- Civil day number of civil date `(y, m, d)` for `m ∈ [1, 12]`
(`days_from_civil`; `d` may be out of range and simply rolls over). -/
def daysFromCivil (y m d : Int) : Int :=
  yShift y m / 400 * 146097 + sY (yShift y m - yShift y m / 400 * 400)
    + (153 * (if 2 < m then m - 3 else m + 9) + 2) / 5 + d - 1 - 719468

/-- Month normalisation performed by Go's `time.Date`: fold an arbitrary
month argument into year `(m - 1) / 12` offsets plus a month in `[1, 12]`. -/
def normMonth (y m : Int) : Int × Int := (y + (m - 1) / 12, (m - 1) % 12 + 1)

/-- Civil day number of an arbitrary (not necessarily normalised) civil date. -/
def civilDay (y m d : Int) : Int :=
  daysFromCivil (normMonth y m).1 (normMonth y m).2 d

/-- Embedding of `time.Date(y, m, d, h, mi, 0, 0, loc)` for the fixed-offset
location: minutes since local epoch, with Go's rollover normalisation of
out-of-range month/day arguments. -/
def mkDate (y m d h mi : Int) : Int :=
  (civilDay y m 1 + (d - 1)) * 1440 + h * 60 + mi

/-- Number of days of the month addressed by `(y, m)` (after normalisation). -/
def daysInMonth (y m : Int) : Int := civilDay y (m + 1) 1 - civilDay y m 1

/-- Embedding of `t.Date()`: the civil date of instant `t`. -/
def dateOf (t : Int) : Int × Int × Int := civilFromDays (t / 1440)

/-- Embedding of `t.Year()`. -/
def yearOf (t : Int) : Int := (dateOf t).1

/-- Embedding of `t.Month()`. -/
def monthOf (t : Int) : Int := (dateOf t).2.1

/-- Embedding of `t.Day()`. -/
def dayOf (t : Int) : Int := (dateOf t).2.2

/-- Embedding of `t.Hour()`. -/
def hourOf (t : Int) : Int := t % 1440 / 60

/-- Embedding of `t.Minute()`. -/
def minuteOf (t : Int) : Int := t % 60

/-- Embedding of `t.Weekday()` (Go numbering: 0 = Sunday … 6 = Saturday;
day 0 = 1970-01-01 was a Thursday = 4). -/
def weekdayOf (t : Int) : Int := (t / 1440 + 4) % 7

/-- Embedding of `t.AddDate(years, months, days)`: Go decomposes `t` into its
civil fields and rebuilds the date with the offsets added. -/
def addDate (t years months days : Int) : Int :=
  mkDate (yearOf t + years) (monthOf t + months) (dayOf t + days)
    (hourOf t) (minuteOf t)

/-!
String helpers.  Go's `strings.HasPrefix`, `strings.TrimPrefix`,
`strings.Split(_, "-")`, `strings.ToLower` (on the ASCII day tokens the code
compares against) and `strconv.Atoi` are modelled over the character list of
the string.
-/

/-- ASCII lower-casing of one code point, as a code-point number.  Agrees
with Go's `strings.ToLower` on every comparison the code performs (all
compared literals are ASCII). -/
def lowerN (n : Nat) : Nat := if 65 ≤ n ∧ n ≤ 90 then n + 32 else n

/-- Lower-cased code points of a string. -/
def lowerCodes (s : String) : List Nat := s.data.map (fun c => lowerN c.toNat)

/-- Code points of a string. -/
def codes (s : String) : List Nat := s.data.map Char.toNat

/-- Does the second list start with the first? -/
def listStarts : List Char → List Char → Bool
  | [], _ => true
  | _ :: _, [] => false
  | p :: ps, c :: cs => p == c && listStarts ps cs

/-- Embedding of `strings.HasPrefix(s, pat)`. -/
def strStarts (s pat : String) : Bool := listStarts pat.data s.data

/-- Embedding of `strings.TrimPrefix(s, pat)`. -/
def strTrimPre (s pat : String) : String :=
  if strStarts s pat then String.mk (s.data.drop pat.data.length) else s

/-- Worker for splitting at `'-'` characters. -/
def splitDashAux : List Char → List Char → List (List Char)
  | [], acc => [acc.reverse]
  | c :: cs, acc =>
      if c = '-' then acc.reverse :: splitDashAux cs []
      else splitDashAux cs (c :: acc)

/-- Embedding of `strings.Split(s, "-")`. -/
def splitDash (l : List Char) : List (List Char) := splitDashAux l []

/-- Numeric value of a digit list (most significant first). -/
def digitsVal (l : List Char) : Nat :=
  l.foldl (fun a c => a * 10 + (c.toNat - 48)) 0

/-- Is the character an ASCII digit? -/
def isDigitCh (c : Char) : Bool := 48 ≤ c.toNat && c.toNat ≤ 57

/-- Embedding of `strconv.Atoi` on a character list: optional sign, then a
nonempty run of digits; empty digits, a non-digit character, or a value
outside the 64-bit signed range are an error (`none`). -/
def atoiL (s : List Char) : Option Int :=
  match s with
  | [] => none
  | '-' :: ds =>
      if ds = [] then none
      else if ds.all isDigitCh then
        if (digitsVal ds : Int) > 9223372036854775808 then none
        else some (-(digitsVal ds : Int))
      else none
  | '+' :: ds =>
      if ds = [] then none
      else if ds.all isDigitCh then
        if (digitsVal ds : Int) > 9223372036854775807 then none
        else some (digitsVal ds : Int)
      else none
  | ds =>
      if ds.all isDigitCh then
        if (digitsVal ds : Int) > 9223372036854775807 then none
        else some (digitsVal ds : Int)
      else none

/-- Embedding of `strconv.Atoi` on a string. -/
def atoi (s : String) : Option Int := atoiL s.data

/-- Embedding of `parseDayOfWeek` (scheduler.go): lower-cases the token and
matches English abbreviations and Indonesian day names; every unrecognised
token falls to the `default` arm, `time.Monday` (= 1). -/
def parseDayOfWeek (day : String) : Int :=
  if lowerCodes day = codes "mon" ∨ lowerCodes day = codes "senin" then 1
  else if lowerCodes day = codes "tue" ∨ lowerCodes day = codes "selasa" then 2
  else if lowerCodes day = codes "wed" ∨ lowerCodes day = codes "rabu" then 3
  else if lowerCodes day = codes "thu" ∨ lowerCodes day = codes "kamis" then 4
  else if lowerCodes day = codes "fri" ∨ lowerCodes day = codes "jumat" then 5
  else if lowerCodes day = codes "sat" ∨ lowerCodes day = codes "sabtu" then 6
  else if lowerCodes day = codes "sun" ∨ lowerCodes day = codes "minggu" then 0
  else 1

/-!
Recurrence calculator (`calculateNext` in scheduler.go).  The Go function
reads `time.Now()` internally; here `now` is an explicit argument.  In the
fixed-offset model `current.In(loc)` is `current` itself, so `cur = current`.
The two unbounded weekday-adjustment `for` loops are embedded with fuel
(7 resp. 8 iterations); since `parseDayOfWeek` always returns a valid
weekday in `[0, 6]`, the Go loops terminate within that many iterations, so
the fuelled versions are extensionally the loops (proved below:
the fuelled result satisfies the loops' exit condition).
-/

/-- The first weekly loop: advance one day at a time until the weekday
matches the target. -/
def adjustToWeekday : Nat → Int → Int → Int
  | 0, t, _ => t
  | fuel + 1, t, target =>
      if weekdayOf t = target then t
      else adjustToWeekday fuel (addDate t 0 0 1) target

/-- The second weekly loop (the behind-`now` correction): advance one day at
a time until the weekday matches the target and the candidate is strictly
after `now`. -/
def weeklyRecompute : Nat → Int → Int → Int → Int
  | 0, t, _, _ => t
  | fuel + 1, t, target, now =>
      if weekdayOf t = target ∧ now < t then t
      else weeklyRecompute fuel (addDate t 0 0 1) target now

/-- The monthly branch of `calculateNext` after a valid day has been parsed. -/
def monthlyNext (current now day : Int) : Int :=
  if mkDate (yearOf current) (monthOf current + 1) day (hourOf current) (minuteOf current) < now then
    if mkDate (yearOf now) (monthOf now + 1) day (hourOf current) (minuteOf current) < now then
      mkDate (yearOf now) (monthOf now + 2) day (hourOf current) (minuteOf current)
    else
      mkDate (yearOf now) (monthOf now + 1) day (hourOf current) (minuteOf current)
  else
    mkDate (yearOf current) (monthOf current + 1) day (hourOf current) (minuteOf current)

/-- The yearly branch of `calculateNext` after a valid month and day have
been parsed. -/
def yearlyNext (current now month day : Int) : Int :=
  if mkDate (yearOf current + 1) month day (hourOf current) (minuteOf current) < now then
    mkDate (yearOf now + 1) month day (hourOf current) (minuteOf current)
  else
    mkDate (yearOf current + 1) month day (hourOf current) (minuteOf current)

/-- Embedding of `calculateNext(current, rule, loc)` with `now` explicit.
Branch structure mirrors the Go switch: `"daily"`, prefix `"weekly:"`,
prefix `"monthly:"`, prefix `"yearly:"`, and the final `current + 1 day`
fallback (also reached by a `yearly:` rule whose payload does not split
into exactly two parts, and by monthly/yearly rules whose numbers fail to
parse or are out of range). -/
def calculateNext (current : Int) (rule : String) (now : Int) : Int :=
  if rule = "daily" then
    if addDate current 0 0 1 < now then
      mkDate (yearOf now) (monthOf now) (dayOf now + 1) (hourOf current) (minuteOf current)
    else addDate current 0 0 1
  else if strStarts rule "weekly:" then
    if adjustToWeekday 7 (addDate current 0 0 7) (parseDayOfWeek (strTrimPre rule "weekly:")) < now then
      weeklyRecompute 8
        (mkDate (yearOf now) (monthOf now) (dayOf now) (hourOf current) (minuteOf current))
        (parseDayOfWeek (strTrimPre rule "weekly:")) now
    else adjustToWeekday 7 (addDate current 0 0 7) (parseDayOfWeek (strTrimPre rule "weekly:"))
  else if strStarts rule "monthly:" then
    match atoi (strTrimPre rule "monthly:") with
    | some day =>
        if day < 1 ∨ 31 < day then addDate current 0 0 1
        else monthlyNext current now day
    | none => addDate current 0 0 1
  else if strStarts rule "yearly:" then
    match splitDash (strTrimPre rule "yearly:").data with
    | [a, b] =>
        match atoiL a, atoiL b with
        | some month, some day =>
            if month < 1 ∨ 12 < month ∨ day < 1 ∨ 31 < day then addDate current 0 0 1
            else yearlyNext current now month day
        | _, _ => addDate current 0 0 1
    | _ => addDate current 0 0 1
  else addDate current 0 0 1

/-- Embedding of `DailyScheduler.nextFirstOfMonth(now, hour, minute)`:
today if today is the 1st and the target time has not passed, otherwise the
1st of next month. -/
def nextFirstOfMonth (now hour minute : Int) : Int :=
  if dayOf now = 1 ∧ now < mkDate (yearOf now) (monthOf now) 1 hour minute then
    mkDate (yearOf now) (monthOf now) 1 hour minute
  else
    mkDate (yearOf now) (monthOf now + 1) 1 hour minute

/-!
Stop signal.  `Scheduler.Stop` and `DailyScheduler.Stop` are textually the
same construction: `s.once.Do(func() { close(s.stopCh) })`.  `sync.Once`
linearises concurrent callers, so the concurrent behaviour is the
sequential iteration of the state transformer below.  Closing an
already-closed channel panics in Go; panics are modelled as `Except.error`.
-/

/-- State of the `once` guard and the stop channel of one scheduler loop. -/
structure StopState where
  onceDone : Bool
  stopClosed : Bool
deriving DecidableEq

/-- A freshly constructed scheduler: `once` unused, `stopCh` open. -/
def initialStopState : StopState := { onceDone := false, stopClosed := false }

/-- Embedding of `close(s.stopCh)`: panics on an already-closed channel. -/
def closeStopCh (s : StopState) : Except String StopState :=
  if s.stopClosed then Except.error "close of closed channel"
  else Except.ok { s with stopClosed := true }

/-- Embedding of `Stop()` = `s.once.Do(func() { close(s.stopCh) })`, shared
by the reminder `Scheduler` and the `DailyScheduler`. -/
def stopOnce (s : StopState) : Except String StopState :=
  if s.onceDone then Except.ok s
  else
    match closeStopCh s with
    | Except.ok s' => Except.ok { s' with onceDone := true }
    | Except.error msg => Except.error msg

/-- `n` successive invocations of `Stop()`. -/
def stopIter : Nat → StopState → Except String StopState
  | 0, s => Except.ok s
  | n + 1, s =>
      match stopOnce s with
      | Except.ok s' => stopIter n s'
      | Except.error msg => Except.error msg

/-!
Reminder store (repository.go) and poller tick (scheduler.go).  The store is
a list of reminder rows; `GetDueReminders` filters the active rows whose
`remind_at` has passed and orders them by `remind_at` ascending (the SQL
`JOIN todos` only contributes the display columns `title`/`user_id`, which
do not affect reminder state; delivery success is modelled by the oracle
`sendOk : Reminder → Bool` standing for `bot.Send`).  Store writes are
modelled as succeeding (the Go code logs and ignores write errors).
-/

/-- A row of the `reminders` table. -/
structure Reminder where
  id : Int
  todoId : Int
  remindAt : Int
  isRecurring : Bool
  recurrenceRule : Option String
  lastFiredAt : Option Int
  isActive : Bool
  createdAt : Int
deriving DecidableEq

/-- Row transformer of `UPDATE reminders SET remind_at = $1, last_fired_at = NOW() WHERE id = $2`. -/
def setNextRow (next now rid : Int) (x : Reminder) : Reminder :=
  if x.id = rid then { x with remindAt := next, lastFiredAt := some now } else x

/-- Row transformer of `UPDATE reminders SET is_active = FALSE, last_fired_at = NOW() WHERE id = $1`. -/
def setInactiveRow (now rid : Int) (x : Reminder) : Reminder :=
  if x.id = rid then { x with isActive := false, lastFiredAt := some now } else x

/-- Embedding of `Repository.UpdateRemindAt`. -/
def updateRemindAt (rid next now : Int) (db : List Reminder) : List Reminder :=
  db.map (setNextRow next now rid)

/-- Embedding of `Repository.Deactivate`. -/
def deactivate (rid now : Int) (db : List Reminder) : List Reminder :=
  db.map (setInactiveRow now rid)

/-- Insertion step of the `ORDER BY remind_at ASC` sort. -/
def insertByRemindAt (r : Reminder) : List Reminder → List Reminder
  | [] => [r]
  | x :: xs =>
      if r.remindAt ≤ x.remindAt then r :: x :: xs
      else x :: insertByRemindAt r xs

/-- Stable sort by `remindAt` ascending (`ORDER BY remind_at ASC`). -/
def sortByRemindAt : List Reminder → List Reminder
  | [] => []
  | x :: xs => insertByRemindAt x (sortByRemindAt xs)

/-- Embedding of `Repository.GetDueReminders`:
`WHERE r.remind_at <= NOW() AND r.is_active = TRUE ORDER BY r.remind_at ASC`. -/
def getDueReminders (now : Int) (db : List Reminder) : List Reminder :=
  sortByRemindAt (db.filter (fun r => decide (r.remindAt ≤ now) && r.isActive))

/-- One iteration of the loop body of `Scheduler.tick` for due reminder `r`:
on delivery failure the store is untouched; on success a recurring reminder
with a rule is rescheduled via `calculateNext`, every other reminder is
deactivated. -/
def tickStep (now : Int) (sendOk : Reminder → Bool) (db : List Reminder)
    (r : Reminder) : List Reminder :=
  if sendOk r then
    match r.isRecurring, r.recurrenceRule with
    | true, some rule => updateRemindAt r.id (calculateNext r.remindAt rule now) now db
    | _, _ => deactivate r.id now db
  else db

/-- Embedding of `Scheduler.tick`: fetch the due snapshot, then process it
in order against the store. -/
def tick (now : Int) (sendOk : Reminder → Bool) (db : List Reminder) : List Reminder :=
  (getDueReminders now db).foldl (tickStep now sendOk) db

/-- A sequence of later ticks, each with its own clock value and delivery
oracle. -/
def runTicks : List (Int × (Reminder → Bool)) → List Reminder → List Reminder
  | [], db => db
  | (now, sendOk) :: rest, db => runTicks rest (tick now sendOk db)

/-- Validity check of a `monthly:` rule payload, as computed by the monthly
branch: the number parses and lies in `[1, 31]`. -/
def monthlyRuleOk (rule : String) : Bool :=
  match atoi (strTrimPre rule "monthly:") with
  | some day => decide (1 ≤ day) && decide (day ≤ 31)
  | none => false

/-- Validity check of a `yearly:` rule payload: exactly two `-`-separated
parts, both parse, month in `[1, 12]`, day in `[1, 31]`. -/
def yearlyRuleOk (rule : String) : Bool :=
  match splitDash (strTrimPre rule "yearly:").data with
  | [a, b] =>
      match atoiL a, atoiL b with
      | some month, some day =>
          decide (1 ≤ month) && decide (month ≤ 12) && decide (1 ≤ day) && decide (day ≤ 31)
      | _, _ => false
  | _ => false

/-- A concrete recurring daily reminder used as a witness input. -/
def sampleRec : Reminder :=
  { id := 1, todoId := 10, remindAt := 0, isRecurring := true,
    recurrenceRule := some "daily", lastFiredAt := none, isActive := true, createdAt := 0 }

/-- A concrete one-shot reminder used as a witness input. -/
def sampleOnce : Reminder :=
  { id := 2, todoId := 11, remindAt := 0, isRecurring := false,
    recurrenceRule := none, lastFiredAt := none, isActive := true, createdAt := 0 }

/-!
Calendar correctness.  The key fact is that `civilFromDays` inverts
`daysFromCivil`: decomposing an instant into Go's `Year/Month/Day` fields
and rebuilding the date with `time.Date` yields the instant's day number
back.  The year-of-era extraction is verified against the 400 year
boundaries of one era by a decidable check, and lifted to all of `Int` by
monotonicity and the periodicity of the era decomposition.
-/

/-- Decidable boundary facts for the 400 years of one era: each year's
start and end day, the year-extraction polynomial `aF` evaluated there, and
adjacency of consecutive years. -/
theorem eraBounds : ∀ k : Nat, k < 400 →
    0 ≤ sY k ∧ sY k ≤ eY k ∧ eY k ≤ 146096 ∧ eY k - sY k ≤ 365 ∧
    365 * (k : Int) ≤ aF (sY k) ∧ aF (eY k) ≤ 365 * (k : Int) + 364 ∧
    (k < 399 → sY ((k : Int) + 1) = eY k + 1) := by decide

/-- The year-extraction polynomial is monotone on a day-of-era range. -/
theorem aF_mono (a b : Int) (h0 : 0 ≤ a) (hab : a ≤ b) (hb : b ≤ 146096) :
    aF a ≤ aF b := by
  unfold aF; omega

/-- Every day-of-era up to `eY k` lies in some year-of-era interval. -/
theorem coverYears : ∀ k : Nat, k ≤ 399 → ∀ doe : Int, 0 ≤ doe → doe ≤ eY k →
    ∃ y : Nat, y ≤ k ∧ sY y ≤ doe ∧ doe ≤ eY y := by
  intro k
  induction k with
  | zero =>
      intro _ doe h0 he
      refine ⟨0, le_refl _, ?_, he⟩
      have hs : sY ((0 : Nat) : Int) = 0 := by decide
      omega
  | succ n ih =>
      intro hn doe h0 he
      by_cases hcase : doe ≤ eY n
      · obtain ⟨y, h1, h2, h3⟩ := ih (by omega) doe h0 hcase
        exact ⟨y, by omega, h2, h3⟩
      · obtain ⟨_, _, _, _, _, _, hlink⟩ := eraBounds n (by omega)
        have hlink' := hlink (by omega)
        refine ⟨n + 1, le_refl _, ?_, he⟩
        have hc : ((n + 1 : Nat) : Int) = (n : Int) + 1 := by push_cast; ring
        rw [hc, hlink']
        omega

/-- Characterisation of the year-of-era extraction: for a day-of-era in
range, `yoeOfDoe` returns the year whose interval contains it, and the
day-of-year is in `[0, 365]`. -/
theorem yoeCharacterisation (doe : Int) (h0 : 0 ≤ doe) (h1 : doe < 146097) :
    ∃ y : Nat, y ≤ 399 ∧ yoeOfDoe doe = (y : Int) ∧ sY (y : Int) ≤ doe ∧
      doe - sY (y : Int) ≤ 365 := by
  have he399 : eY ((399 : Nat) : Int) = 146096 := by decide
  obtain ⟨y, hy, hs, he⟩ := coverYears 399 (le_refl _) doe h0 (by rw [he399]; omega)
  obtain ⟨b1, b2, b3, b4, b5, b6, _⟩ := eraBounds y (by omega)
  have m1 : aF (sY y) ≤ aF doe := aF_mono _ _ b1 hs (by omega)
  have m2 : aF doe ≤ aF (eY y) := aF_mono _ _ (by omega) he b3
  refine ⟨y, hy, ?_, hs, by omega⟩
  unfold yoeOfDoe
  omega

/-- Rebuilding `days_from_civil` from an era/year-of-era/day-of-year/month
decomposition recovers the day-of-era count. -/
theorem dfc_reconstruct (era yoe doy mp : Int)
    (hyoe0 : 0 ≤ yoe) (hyoe1 : yoe ≤ 399) (hmp0 : 0 ≤ mp) (hmp1 : mp ≤ 11) :
    daysFromCivil
      ((if (if mp < 10 then mp + 3 else mp - 9) ≤ 2 then yoe + 1 else yoe) + era * 400)
      (if mp < 10 then mp + 3 else mp - 9)
      (doy - (153 * mp + 2) / 5 + 1)
      = era * 146097 + sY yoe + doy - 719468 := by
  unfold daysFromCivil yShift sY
  split_ifs <;> omega

/-- Correctness of the civil-date decomposition: the month is in `[1, 12]`
and `days_from_civil` inverts it. -/
theorem cfd_correct (z : Int) :
    1 ≤ monthFromDoe (doeOf z) ∧ monthFromDoe (doeOf z) ≤ 12 ∧
    daysFromCivil (yearFromZ z) (monthFromDoe (doeOf z)) (dayFromDoe (doeOf z)) = z := by
  obtain ⟨y, hy, hyoe, hs, hdoy⟩ :=
    yoeCharacterisation (doeOf z) (by unfold doeOf; omega) (by unfold doeOf; omega)
  have hdoydef : doyOfDoe (doeOf z) = doeOf z - sY (y : Int) := by
    unfold doyOfDoe; rw [hyoe]
  have hmp0 : 0 ≤ mpOfDoy (doyOfDoe (doeOf z)) := by unfold mpOfDoy; omega
  have hmp11 : mpOfDoy (doyOfDoe (doeOf z)) ≤ 11 := by unfold mpOfDoy; omega
  refine ⟨?_, ?_, ?_⟩
  · unfold monthFromDoe; split_ifs <;> omega
  · unfold monthFromDoe; split_ifs <;> omega
  · have hrec := dfc_reconstruct (eraOf z) ((y : Nat) : Int) (doyOfDoe (doeOf z))
      (mpOfDoy (doyOfDoe (doeOf z))) (by omega) (by omega) hmp0 hmp11
    unfold yearFromZ monthFromDoe dayFromDoe
    rw [hyoe, hrec]
    unfold eraOf doeOf at *
    omega

/-- Month normalisation is the identity on an in-range month. -/
theorem civilDay_eq_dfc (y m d : Int) (h1 : 1 ≤ m) (h2 : m ≤ 12) :
    civilDay y m d = daysFromCivil y m d := by
  have hnm : normMonth y m = (y, m) := by
    unfold normMonth
    rw [(by omega : (m - 1) / 12 = 0), (by omega : (m - 1) % 12 = m - 1)]
    norm_num
  unfold civilDay
  rw [hnm]

/-- The civil day count is linear in the day argument. -/
theorem civilDay_linear (y m d : Int) : civilDay y m d = civilDay y m 1 + (d - 1) := by
  unfold civilDay daysFromCivil
  ring

/-- Unfolding equations for the date accessors. -/
theorem yearOf_eq (t : Int) : yearOf t = yearFromZ (t / 1440) := rfl

/-- Unfolding equation for the month accessor. -/
theorem monthOf_eq (t : Int) : monthOf t = monthFromDoe (doeOf (t / 1440)) := rfl

/-- Unfolding equation for the day accessor. -/
theorem dayOf_eq (t : Int) : dayOf t = dayFromDoe (doeOf (t / 1440)) := rfl

/-- Rebuilding an instant's own date at an arbitrary time of day:
`time.Date(t.Year(), t.Month(), t.Day(), h, mi, 0, 0, loc)` is the start of
`t`'s civil day plus the requested time of day. -/
theorem mkDate_decomp (t h mi : Int) :
    mkDate (yearOf t) (monthOf t) (dayOf t) h mi = t / 1440 * 1440 + h * 60 + mi := by
  obtain ⟨h1, h2, h3⟩ := cfd_correct (t / 1440)
  unfold mkDate
  rw [yearOf_eq, monthOf_eq, dayOf_eq, ← civilDay_linear,
    civilDay_eq_dfc _ _ _ h1 h2, h3]

/-- `AddDate(0, 0, k)` adds exactly `k` days in the fixed-offset model. -/
theorem addDate_days (t k : Int) : addDate t 0 0 k = t + k * 1440 := by
  unfold addDate
  rw [add_zero, add_zero]
  have hsh : mkDate (yearOf t) (monthOf t) (dayOf t + k) (hourOf t) (minuteOf t)
      = mkDate (yearOf t) (monthOf t) (dayOf t) (hourOf t) (minuteOf t) + k * 1440 := by
    unfold mkDate; ring
  rw [hsh, mkDate_decomp]
  unfold hourOf minuteOf
  omega

/-- Adding one day advances the weekday by one, modulo 7. -/
theorem weekdayOf_addDate_one (t : Int) :
    weekdayOf (addDate t 0 0 1) = (weekdayOf t + 1) % 7 := by
  rw [addDate_days]
  unfold weekdayOf
  omega

/-- If some candidate within the fuel satisfies the exit condition, the
first weekly adjustment loop stops on the target weekday. -/
theorem adjustToWeekday_hits : ∀ (fuel : Nat) (t target : Int),
    (∃ k : Nat, k < fuel ∧ weekdayOf (t + (k : Int) * 1440) = target) →
    weekdayOf (adjustToWeekday fuel t target) = target := by
  intro fuel
  induction fuel with
  | zero =>
      intro t target h
      obtain ⟨k, hk, _⟩ := h
      omega
  | succ n ih =>
      intro t target h
      obtain ⟨k, hk, hw⟩ := h
      unfold adjustToWeekday
      by_cases hc : weekdayOf t = target
      · rw [if_pos hc]
        exact hc
      · rw [if_neg hc]
        apply ih
        have hk0 : k ≠ 0 := by
          rintro rfl
          simp only [Nat.cast_zero, zero_mul, add_zero] at hw
          exact hc hw
        obtain ⟨k', rfl⟩ : ∃ k', k = k' + 1 := ⟨k - 1, by omega⟩
        refine ⟨k', by omega, ?_⟩
        rw [addDate_days]
        have harg : t + 1 * 1440 + (k' : Int) * 1440 = t + ((k' + 1 : Nat) : Int) * 1440 := by
          push_cast; ring
        rw [harg]
        exact hw

/-- A matching weekday is always reached within 7 daily steps. -/
theorem exists_weekday_hit (t target : Int) (h0 : 0 ≤ target) (h7 : target < 7) :
    ∃ k : Nat, k < 7 ∧ weekdayOf (t + (k : Int) * 1440) = target := by
  have hm0 : 0 ≤ (target - weekdayOf t) % 7 := Int.emod_nonneg _ (by norm_num)
  have hm7 : (target - weekdayOf t) % 7 < 7 := Int.emod_lt_of_pos _ (by norm_num)
  refine ⟨((target - weekdayOf t) % 7).toNat, by omega, ?_⟩
  rw [Int.toNat_of_nonneg hm0]
  unfold weekdayOf
  omega

/-- If some candidate within the fuel satisfies the exit condition, the
behind-`now` weekly recomputation loop stops on the target weekday strictly
after `now`. -/
theorem weeklyRecompute_hits : ∀ (fuel : Nat) (t target now : Int),
    (∃ k : Nat, k < fuel ∧ weekdayOf (t + (k : Int) * 1440) = target ∧
      now < t + (k : Int) * 1440) →
    weekdayOf (weeklyRecompute fuel t target now) = target ∧
      now < weeklyRecompute fuel t target now := by
  intro fuel
  induction fuel with
  | zero =>
      intro t target now h
      obtain ⟨k, hk, _⟩ := h
      omega
  | succ n ih =>
      intro t target now h
      obtain ⟨k, hk, hw, hafter⟩ := h
      unfold weeklyRecompute
      by_cases hc : weekdayOf t = target ∧ now < t
      · rw [if_pos hc]
        exact hc
      · rw [if_neg hc]
        apply ih
        have hk0 : k ≠ 0 := by
          rintro rfl
          simp only [Nat.cast_zero, zero_mul, add_zero] at hw hafter
          exact hc ⟨hw, hafter⟩
        obtain ⟨k', rfl⟩ : ∃ k', k = k' + 1 := ⟨k - 1, by omega⟩
        have harg : addDate t 0 0 1 + (k' : Int) * 1440 = t + ((k' + 1 : Nat) : Int) * 1440 := by
          rw [addDate_days]; push_cast; ring
        refine ⟨k', by omega, ?_, ?_⟩
        · rw [harg]; exact hw
        · rw [harg]; exact hafter

/-- From a starting candidate at most one day behind `now`, a candidate on
the target weekday and strictly after `now` exists within 8 daily steps. -/
theorem exists_weekly_hit (t target now : Int) (h0 : 0 ≤ target) (h7 : target < 7)
    (hnear : now - 1440 < t) :
    ∃ k : Nat, k < 8 ∧ weekdayOf (t + (k : Int) * 1440) = target ∧
      now < t + (k : Int) * 1440 := by
  have hm0 : 0 ≤ (target - weekdayOf t) % 7 := Int.emod_nonneg _ (by norm_num)
  have hm7 : (target - weekdayOf t) % 7 < 7 := Int.emod_lt_of_pos _ (by norm_num)
  by_cases hz : (target - weekdayOf t) % 7 = 0 ∧ now < t
  · refine ⟨0, by omega, ?_, ?_⟩
    · simp only [Nat.cast_zero, zero_mul, add_zero]
      unfold weekdayOf at *
      omega
    · simp only [Nat.cast_zero, zero_mul, add_zero]
      exact hz.2
  · by_cases hz0 : (target - weekdayOf t) % 7 = 0
    · refine ⟨7, by omega, ?_, ?_⟩
      · unfold weekdayOf at *
        push_cast
        omega
      · push_cast
        omega
    · refine ⟨((target - weekdayOf t) % 7).toNat, by omega, ?_, ?_⟩
      · rw [Int.toNat_of_nonneg hm0]
        unfold weekdayOf at *
        omega
      · rw [Int.toNat_of_nonneg hm0]
        omega

theorem listStarts_self_append : ∀ (p l : List Char), listStarts p (p ++ l) = true := by
  intro p
  induction p with
  | nil => intro l; rfl
  | cons c cs ih =>
      intro l
      show (c == c && listStarts cs (cs ++ l)) = true
      rw [beq_self_eq_true, Bool.true_and]
      exact ih l

theorem weekly_append_ne_daily (s : String) : ("weekly:" ++ s) ≠ "daily" := by
  intro hEq
  have hdata := congrArg String.data hEq
  rw [String.data_append] at hdata
  have hw : "weekly:".data = ['w', 'e', 'e', 'k', 'l', 'y', ':'] := rfl
  have hd : "daily".data = ['d', 'a', 'i', 'l', 'y'] := rfl
  rw [hw, hd, List.cons_append] at hdata
  injection hdata with h1 _
  exact absurd h1 (by decide)

theorem strStarts_weekly_append (s : String) : strStarts ("weekly:" ++ s) "weekly:" = true := by
  unfold strStarts
  rw [String.data_append]
  exact listStarts_self_append _ _

theorem strTrimPre_weekly_append (s : String) : strTrimPre ("weekly:" ++ s) "weekly:" = s := by
  unfold strTrimPre
  rw [if_pos (strStarts_weekly_append s), String.data_append, List.drop_left]

theorem parseDayOfWeek_range (s : String) : 0 ≤ parseDayOfWeek s ∧ parseDayOfWeek s < 7 := by
  unfold parseDayOfWeek
  split_ifs <;> norm_num

/-- C2: the monthly scenario from the spec. -/
theorem calculateNext_monthly_feb_scenario :
    calculateNext (mkDate 2026 2 5 7 0) "monthly:5" (mkDate 2026 2 20 0 0)
      = mkDate 2026 3 5 7 0 := by decide

/-- C8: monthly-report deadline scenario. -/
theorem nextFirstOfMonth_monthly_report_scenario :
    nextFirstOfMonth (mkDate 2026 3 1 7 59) 8 0 = mkDate 2026 3 1 8 0 ∧
    nextFirstOfMonth (mkDate 2026 3 1 8 1) 8 0 = mkDate 2026 4 1 8 0 := by
  exact ⟨by decide, by decide⟩

/-- C9: Stop is idempotent and never panics. -/
theorem stop_idempotent_never_panics (n : Nat) :
    stopIter (n + 1) initialStopState
      = Except.ok { onceDone := true, stopClosed := true } ∧
    stopOnce { onceDone := true, stopClosed := true }
      = Except.ok { onceDone := true, stopClosed := true } := by
  have hstable : ∀ m : Nat, stopIter m { onceDone := true, stopClosed := true }
      = Except.ok { onceDone := true, stopClosed := true } := by
    intro m
    induction m with
    | zero => rfl
    | succ k ih => exact ih
  exact ⟨hstable n, rfl⟩

/-- C6 counterexample: with `now` exactly one day after `current`, the daily
rule returns `now` itself, which is not strictly after `now`. -/
theorem calculateNext_daily_can_equal_now :
    calculateNext 0 "daily" 1440 = 1440 ∧ ¬ (1440 < calculateNext 0 "daily" 1440) := by
  exact ⟨by decide, by decide⟩

/-- C6 (amended): daily result is strictly after `current` and never before
`now`. -/
theorem calculateNext_daily_after_current_not_before_now (current now : Int) :
    current < calculateNext current "daily" now ∧
    now ≤ calculateNext current "daily" now := by
  have hfb : addDate current 0 0 1 = current + 1440 := by rw [addDate_days]; ring
  unfold calculateNext
  rw [if_pos rfl]
  by_cases hlt : addDate current 0 0 1 < now
  · rw [if_pos hlt]
    rw [hfb] at hlt
    have hd : mkDate (yearOf now) (monthOf now) (dayOf now + 1) (hourOf current) (minuteOf current)
        = now / 1440 * 1440 + 1440 + (hourOf current * 60 + minuteOf current) := by
      have hstep : mkDate (yearOf now) (monthOf now) (dayOf now + 1) (hourOf current) (minuteOf current)
          = mkDate (yearOf now) (monthOf now) (dayOf now) (hourOf current) (minuteOf current) + 1440 := by
        unfold mkDate; ring
      rw [hstep, mkDate_decomp]; ring
    rw [hd]
    unfold hourOf minuteOf
    omega
  · rw [if_neg hlt, hfb]
    rw [hfb] at hlt
    omega

/-- C3 counterexample: a weekly rule with an unparseable day token does not
fall back to `current + 1 day`; the token is parsed as Monday. -/
theorem calculateNext_weekly_malformed_no_fallback :
    calculateNext 0 "weekly:xyz" 0 = 15840 ∧ (15840 : Int) ≠ 0 + 1440 := by
  exact ⟨by decide, by decide⟩

/-- C3 (amended): malformed monthly and yearly rules and unrecognised rules
fall back to `current + 1 day`. -/
theorem calculateNext_malformed_fallback (current now : Int) (rule : String)
    (h1 : rule ≠ "daily")
    (h2 : strStarts rule "weekly:" = false)
    (h3 : strStarts rule "monthly:" = true → monthlyRuleOk rule = false)
    (h4 : strStarts rule "yearly:" = true → yearlyRuleOk rule = false) :
    calculateNext current rule now = current + 1440 := by
  have hfb : addDate current 0 0 1 = current + 1440 := by rw [addDate_days]; ring
  have h2' : ¬ (strStarts rule "weekly:" = true) := by
    rw [h2]; exact Bool.false_ne_true
  unfold calculateNext
  rw [if_neg h1, if_neg h2']
  by_cases hm : strStarts rule "monthly:" = true
  · rw [if_pos hm]
    have hb := h3 hm
    unfold monthlyRuleOk at hb
    cases hat : atoi (strTrimPre rule "monthly:") with
    | none => simp only [hat]; exact hfb
    | some day =>
        rw [hat] at hb
        simp only [hat]
        have hout : day < 1 ∨ 31 < day := by
          simp only [Bool.and_eq_false_iff, decide_eq_false_iff_not, not_le] at hb
          omega
        rw [if_pos hout]
        exact hfb
  · rw [if_neg hm]
    by_cases hy : strStarts rule "yearly:" = true
    · rw [if_pos hy]
      have hb := h4 hy
      unfold yearlyRuleOk at hb
      rcases hsp : splitDash (strTrimPre rule "yearly:").data with _ | ⟨a, _ | ⟨b, _ | ⟨c, t⟩⟩⟩
      · simp only [hsp]; exact hfb
      · simp only [hsp]; exact hfb
      · have hb' : (match atoiL a, atoiL b with
            | some month, some day =>
                decide (1 ≤ month) && decide (month ≤ 12) && decide (1 ≤ day) && decide (day ≤ 31)
            | _, _ => false) = false := by
          rw [hsp] at hb
          exact hb
        simp only [hsp]
        show (match atoiL a, atoiL b with
            | some month, some day =>
                if month < 1 ∨ 12 < month ∨ day < 1 ∨ 31 < day then addDate current 0 0 1
                else yearlyNext current now month day
            | _, _ => addDate current 0 0 1) = current + 1440
        cases hA : atoiL a with
        | none => simp only [hA]; exact hfb
        | some month =>
            cases hB : atoiL b with
            | none => simp only [hA, hB]; exact hfb
            | some day =>
                rw [hA, hB] at hb'
                have hb'' : (decide (1 ≤ month) && decide (month ≤ 12) && decide (1 ≤ day)
                    && decide (day ≤ 31)) = false := hb'
                have hout : month < 1 ∨ 12 < month ∨ day < 1 ∨ 31 < day := by
                  simp only [Bool.and_eq_false_iff, decide_eq_false_iff_not, not_le] at hb''
                  omega
                simp only [hA, hB]
                rw [if_pos hout]
                exact hfb
      · simp only [hsp]; exact hfb
    · rw [if_neg hy]
      exact hfb

/-- C3 witness. -/
theorem calculateNext_malformed_fallback_witness :
    calculateNext 3 "monthly:99" 5 = 3 + 1440 :=
  calculateNext_malformed_fallback 3 5 "monthly:99" (by decide) (by decide)
    (fun _ => by decide) (fun hcontra => absurd hcontra (by decide))

/-- C7: the weekly rule always lands on the parsed target weekday. -/
theorem calculateNext_weekly_lands_on_target_weekday (s : String) (d current now : Int)
    (hparse : parseDayOfWeek s = d) :
    weekdayOf (calculateNext current ("weekly:" ++ s) now) = d := by
  have hrange : 0 ≤ d ∧ d < 7 := hparse ▸ parseDayOfWeek_range s
  unfold calculateNext
  rw [if_neg (weekly_append_ne_daily s), if_pos (strStarts_weekly_append s),
    strTrimPre_weekly_append, hparse]
  by_cases hlt : adjustToWeekday 7 (addDate current 0 0 7) d < now
  · rw [if_pos hlt]
    have hnear : now - 1440
        < mkDate (yearOf now) (monthOf now) (dayOf now) (hourOf current) (minuteOf current) := by
      have ht0 : mkDate (yearOf now) (monthOf now) (dayOf now) (hourOf current) (minuteOf current)
          = now / 1440 * 1440 + (hourOf current * 60 + minuteOf current) := by
        rw [mkDate_decomp]; ring
      rw [ht0]
      unfold hourOf minuteOf
      omega
    exact (weeklyRecompute_hits 8 _ d now
      (exists_weekly_hit _ d now hrange.1 hrange.2 hnear)).1
  · rw [if_neg hlt]
    exact adjustToWeekday_hits 7 _ d (exists_weekday_hit _ d hrange.1 hrange.2)

/-- C7 witness. -/
theorem calculateNext_weekly_lands_on_target_weekday_witness :
    weekdayOf (calculateNext 0 ("weekly:" ++ "fri") 0) = 5 :=
  calculateNext_weekly_lands_on_target_weekday "fri" 5 0 0 (by decide)

/-- C10: when the parsed day exceeds the target month's length, the monthly
and yearly branches roll the date into the following month (never clamping
to the month's last day). -/
theorem monthly_yearly_day_overflow_rolls_over (current now d mo : Int) :
    (∃ y m, monthlyNext current now d = mkDate y m d (hourOf current) (minuteOf current) ∧
      (daysInMonth y m < d →
        monthlyNext current now d
          = mkDate y (m + 1) (d - daysInMonth y m) (hourOf current) (minuteOf current) ∧
        mkDate y m (daysInMonth y m) (hourOf current) (minuteOf current)
          < monthlyNext current now d)) ∧
    (∃ y, yearlyNext current now mo d = mkDate y mo d (hourOf current) (minuteOf current) ∧
      (daysInMonth y mo < d →
        yearlyNext current now mo d
          = mkDate y (mo + 1) (d - daysInMonth y mo) (hourOf current) (minuteOf current) ∧
        mkDate y mo (daysInMonth y mo) (hourOf current) (minuteOf current)
          < yearlyNext current now mo d)) := by
  have hroll : ∀ y m dd h mi : Int,
      mkDate y m dd h mi = mkDate y (m + 1) (dd - daysInMonth y m) h mi := by
    intro y m dd h mi
    unfold mkDate daysInMonth
    ring
  have hclamp : ∀ y m dd h mi : Int, daysInMonth y m < dd →
      mkDate y m (daysInMonth y m) h mi < mkDate y m dd h mi := by
    intro y m dd h mi hlt
    unfold mkDate daysInMonth at *
    omega
  constructor
  · unfold monthlyNext
    by_cases hc1 : mkDate (yearOf current) (monthOf current + 1) d (hourOf current) (minuteOf current) < now
    · rw [if_pos hc1]
      by_cases hc2 : mkDate (yearOf now) (monthOf now + 1) d (hourOf current) (minuteOf current) < now
      · rw [if_pos hc2]
        exact ⟨yearOf now, monthOf now + 2, rfl,
          fun hlt => ⟨hroll _ _ _ _ _, hclamp _ _ _ _ _ hlt⟩⟩
      · rw [if_neg hc2]
        exact ⟨yearOf now, monthOf now + 1, rfl,
          fun hlt => ⟨hroll _ _ _ _ _, hclamp _ _ _ _ _ hlt⟩⟩
    · rw [if_neg hc1]
      exact ⟨yearOf current, monthOf current + 1, rfl,
        fun hlt => ⟨hroll _ _ _ _ _, hclamp _ _ _ _ _ hlt⟩⟩
  · unfold yearlyNext
    by_cases hc1 : mkDate (yearOf current + 1) mo d (hourOf current) (minuteOf current) < now
    · rw [if_pos hc1]
      exact ⟨yearOf now + 1, rfl, fun hlt => ⟨hroll _ _ _ _ _, hclamp _ _ _ _ _ hlt⟩⟩
    · rw [if_neg hc1]
      exact ⟨yearOf current + 1, rfl, fun hlt => ⟨hroll _ _ _ _ _, hclamp _ _ _ _ _ hlt⟩⟩

/-- Illustration of the rollover at a concrete overflow date: April 31st
normalises to May 1st, one day past April's last day. -/
theorem mkDate_april_overflow_example :
    mkDate 2026 4 31 9 0 = mkDate 2026 5 1 9 0 ∧ daysInMonth 2026 4 = 30 := by
  exact ⟨by decide, by decide⟩

theorem setNextRow_id (next now rid : Int) (x : Reminder) :
    (setNextRow next now rid x).id = x.id := by
  unfold setNextRow; split_ifs <;> rfl

theorem setInactiveRow_id (now rid : Int) (x : Reminder) :
    (setInactiveRow now rid x).id = x.id := by
  unfold setInactiveRow; split_ifs <;> rfl

theorem setNextRow_isActive (next now rid : Int) (x : Reminder) :
    (setNextRow next now rid x).isActive = x.isActive := by
  unfold setNextRow; split_ifs <;> rfl

theorem setInactiveRow_isActive_false (now rid : Int) (x : Reminder)
    (h : x.isActive = false) : (setInactiveRow now rid x).isActive = false := by
  unfold setInactiveRow
  split_ifs
  · rfl
  · exact h

theorem find?_map_of_id (g : Reminder → Reminder) (hg : ∀ x, (g x).id = x.id)
    (l : List Reminder) (i : Int) :
    (l.map g).find? (fun x => x.id == i) = (l.find? (fun x => x.id == i)).map g := by
  induction l with
  | nil => rfl
  | cons a l ih =>
      rw [List.map_cons]
      by_cases h : a.id = i
      · rw [List.find?_cons_of_pos _ (by simp [hg, h]), List.find?_cons_of_pos _ (by simp [h])]
        rfl
      · rw [List.find?_cons_of_neg _ (by simp [hg, h]), List.find?_cons_of_neg _ (by simp [h])]
        exact ih

theorem updateRemindAt_find?_other (rid next now i : Int) (db : List Reminder)
    (hne : rid ≠ i) :
    (updateRemindAt rid next now db).find? (fun x => x.id == i)
      = db.find? (fun x => x.id == i) := by
  unfold updateRemindAt
  rw [find?_map_of_id _ (setNextRow_id next now rid) db i]
  cases hf : db.find? (fun x => x.id == i) with
  | none => rfl
  | some y =>
      have hyid : y.id = i := by simpa using List.find?_some hf
      have hfix : setNextRow next now rid y = y := by
        unfold setNextRow
        rw [if_neg (by rw [hyid]; exact fun hEq => hne hEq.symm)]
      rw [Option.map_some', hfix]

theorem deactivate_find?_other (rid now i : Int) (db : List Reminder) (hne : rid ≠ i) :
    (deactivate rid now db).find? (fun x => x.id == i) = db.find? (fun x => x.id == i) := by
  unfold deactivate
  rw [find?_map_of_id _ (setInactiveRow_id now rid) db i]
  cases hf : db.find? (fun x => x.id == i) with
  | none => rfl
  | some y =>
      have hyid : y.id = i := by simpa using List.find?_some hf
      have hfix : setInactiveRow now rid y = y := by
        unfold setInactiveRow
        rw [if_neg (by rw [hyid]; exact fun hEq => hne hEq.symm)]
      rw [Option.map_some', hfix]

theorem tickStep_find?_other (now : Int) (sendOk : Reminder → Bool) (db : List Reminder)
    (r : Reminder) (i : Int) (hne : r.id ≠ i) :
    (tickStep now sendOk db r).find? (fun x => x.id == i) = db.find? (fun x => x.id == i) := by
  unfold tickStep
  by_cases hs : sendOk r = true
  · rw [if_pos hs]
    cases hrec : r.isRecurring <;> cases hrule : r.recurrenceRule <;>
      first
      | exact updateRemindAt_find?_other _ _ _ _ _ hne
      | exact deactivate_find?_other _ _ _ _ hne
  · rw [if_neg hs]

theorem foldl_tickStep_find?_other (now : Int) (sendOk : Reminder → Bool) :
    ∀ (l db : List Reminder) (i : Int), (∀ x ∈ l, x.id ≠ i) →
      (l.foldl (tickStep now sendOk) db).find? (fun x => x.id == i)
        = db.find? (fun x => x.id == i) := by
  intro l
  induction l with
  | nil => intro db i _; rfl
  | cons a l ih =>
      intro db i hl
      rw [List.foldl_cons, ih _ i (fun x hx => hl x (List.mem_cons_of_mem a hx)),
        tickStep_find?_other now sendOk db a i (hl a (List.mem_cons_self a l))]

theorem insertByRemindAt_perm (r : Reminder) :
    ∀ l : List Reminder, (insertByRemindAt r l).Perm (r :: l) := by
  intro l
  induction l with
  | nil => exact List.Perm.refl _
  | cons x xs ih =>
      unfold insertByRemindAt
      split_ifs with h
      · exact List.Perm.refl _
      · exact (ih.cons x).trans (List.Perm.swap r x xs)

theorem sortByRemindAt_perm : ∀ l : List Reminder, (sortByRemindAt l).Perm l := by
  intro l
  induction l with
  | nil => exact List.Perm.refl _
  | cons x xs ih =>
      unfold sortByRemindAt
      exact (insertByRemindAt_perm x (sortByRemindAt xs)).trans (ih.cons x)

theorem mem_getDue (now : Int) (db : List Reminder) (r : Reminder) :
    r ∈ getDueReminders now db ↔ r ∈ db ∧ r.remindAt ≤ now ∧ r.isActive = true := by
  unfold getDueReminders
  rw [(sortByRemindAt_perm _).mem_iff]
  simp [List.mem_filter, and_assoc]

theorem getDue_ids_nodup (now : Int) (db : List Reminder)
    (h : (db.map Reminder.id).Nodup) :
    ((getDueReminders now db).map Reminder.id).Nodup := by
  unfold getDueReminders
  rw [((sortByRemindAt_perm _).map Reminder.id).nodup_iff]
  exact h.sublist ((List.filter_sublist db).map Reminder.id)

theorem nodup_middle_ids (l1 l2 : List Reminder) (r : Reminder)
    (h : ((l1 ++ r :: l2).map Reminder.id).Nodup) :
    (∀ x ∈ l1, x.id ≠ r.id) ∧ (∀ x ∈ l2, x.id ≠ r.id) := by
  rw [List.map_append, List.map_cons, List.nodup_middle, List.nodup_cons] at h
  constructor
  · intro x hx hEq
    exact h.1 (by rw [← hEq]; exact List.mem_append_left _ (List.mem_map_of_mem Reminder.id hx))
  · intro x hx hEq
    exact h.1 (by rw [← hEq]; exact List.mem_append_right _ (List.mem_map_of_mem Reminder.id hx))

theorem find?_nodup_mem (db : List Reminder) (r : Reminder)
    (hnodup : (db.map Reminder.id).Nodup) (hmem : r ∈ db) :
    db.find? (fun x => x.id == r.id) = some r := by
  induction db with
  | nil => cases hmem
  | cons a l ih =>
      rw [List.map_cons, List.nodup_cons] at hnodup
      rcases List.mem_cons.mp hmem with rfl | hmem'
      · exact List.find?_cons_of_pos _ (by simp)
      · have hne : a.id ≠ r.id := by
          intro hEq
          exact hnodup.1 (by rw [hEq]; exact List.mem_map_of_mem Reminder.id hmem')
        rw [List.find?_cons_of_neg _ (by simp [hne])]
        exact ih hnodup.2 hmem'

theorem nodup_find?_unique (db : List Reminder) (i : Int) (y : Reminder)
    (hnodup : (db.map Reminder.id).Nodup) (hf : db.find? (fun x => x.id == i) = some y) :
    ∀ x ∈ db, x.id = i → x = y := by
  induction db with
  | nil => intro x hx; cases hx
  | cons a l ih =>
      rw [List.map_cons, List.nodup_cons] at hnodup
      intro x hx hxid
      rcases List.mem_cons.mp hx with rfl | hx'
      · rw [List.find?_cons_of_pos _ (by simp [hxid])] at hf
        exact Option.some.inj hf
      · by_cases ha : a.id = i
        · exact absurd (by rw [ha, ← hxid]; exact List.mem_map_of_mem Reminder.id hx') hnodup.1
        · rw [List.find?_cons_of_neg _ (by simp [ha])] at hf
          exact ih hnodup.2 hf x hx' hxid

theorem updateRemindAt_map_id (rid next now : Int) (db : List Reminder) :
    (updateRemindAt rid next now db).map Reminder.id = db.map Reminder.id := by
  unfold updateRemindAt
  rw [List.map_map]
  exact List.map_congr_left (fun x _ => setNextRow_id next now rid x)

theorem deactivate_map_id (rid now : Int) (db : List Reminder) :
    (deactivate rid now db).map Reminder.id = db.map Reminder.id := by
  unfold deactivate
  rw [List.map_map]
  exact List.map_congr_left (fun x _ => setInactiveRow_id now rid x)

theorem tickStep_map_id (now : Int) (sendOk : Reminder → Bool) (db : List Reminder)
    (r : Reminder) :
    (tickStep now sendOk db r).map Reminder.id = db.map Reminder.id := by
  unfold tickStep
  by_cases hs : sendOk r = true
  · rw [if_pos hs]
    cases hrec : r.isRecurring <;> cases hrule : r.recurrenceRule <;>
      first
      | exact updateRemindAt_map_id _ _ _ _
      | exact deactivate_map_id _ _ _
  · rw [if_neg hs]

theorem foldl_tickStep_map_id (now : Int) (sendOk : Reminder → Bool) :
    ∀ (l db : List Reminder),
      (l.foldl (tickStep now sendOk) db).map Reminder.id = db.map Reminder.id := by
  intro l
  induction l with
  | nil => intro db; rfl
  | cons a l ih => intro db; rw [List.foldl_cons, ih, tickStep_map_id]

theorem tick_map_id (now : Int) (sendOk : Reminder → Bool) (db : List Reminder) :
    (tick now sendOk db).map Reminder.id = db.map Reminder.id :=
  foldl_tickStep_map_id now sendOk _ db

theorem updateRemindAt_pres_inactive (rid next now i : Int) (db : List Reminder)
    (h : ∀ x ∈ db, x.id = i → x.isActive = false) :
    ∀ x ∈ updateRemindAt rid next now db, x.id = i → x.isActive = false := by
  unfold updateRemindAt
  intro x hx hxid
  obtain ⟨x', hx', rfl⟩ := List.mem_map.mp hx
  rw [setNextRow_isActive]
  exact h x' hx' (by rw [← setNextRow_id next now rid x']; exact hxid)

theorem deactivate_pres_inactive (rid now i : Int) (db : List Reminder)
    (h : ∀ x ∈ db, x.id = i → x.isActive = false) :
    ∀ x ∈ deactivate rid now db, x.id = i → x.isActive = false := by
  unfold deactivate
  intro x hx hxid
  obtain ⟨x', hx', rfl⟩ := List.mem_map.mp hx
  exact setInactiveRow_isActive_false now rid x'
    (h x' hx' (by rw [← setInactiveRow_id now rid x']; exact hxid))

theorem tickStep_pres_inactive (now : Int) (sendOk : Reminder → Bool) (db : List Reminder)
    (r : Reminder) (i : Int) (h : ∀ x ∈ db, x.id = i → x.isActive = false) :
    ∀ x ∈ tickStep now sendOk db r, x.id = i → x.isActive = false := by
  unfold tickStep
  by_cases hs : sendOk r = true
  · rw [if_pos hs]
    cases hrec : r.isRecurring <;> cases hrule : r.recurrenceRule <;>
      first
      | exact updateRemindAt_pres_inactive _ _ _ _ _ h
      | exact deactivate_pres_inactive _ _ _ _ h
  · rw [if_neg hs]
    exact h

theorem foldl_tickStep_pres_inactive (now : Int) (sendOk : Reminder → Bool) :
    ∀ (l db : List Reminder) (i : Int), (∀ x ∈ db, x.id = i → x.isActive = false) →
      ∀ x ∈ l.foldl (tickStep now sendOk) db, x.id = i → x.isActive = false := by
  intro l
  induction l with
  | nil => intro db i h; exact h
  | cons a l ih =>
      intro db i h
      rw [List.foldl_cons]
      exact ih _ i (tickStep_pres_inactive now sendOk db a i h)

theorem tick_pres_inactive (now : Int) (sendOk : Reminder → Bool) (db : List Reminder)
    (i : Int) (h : ∀ x ∈ db, x.id = i → x.isActive = false) :
    ∀ x ∈ tick now sendOk db, x.id = i → x.isActive = false :=
  foldl_tickStep_pres_inactive now sendOk _ db i h

theorem runTicks_pres_inactive :
    ∀ (future : List (Int × (Reminder → Bool))) (db : List Reminder) (i : Int),
      (∀ x ∈ db, x.id = i → x.isActive = false) →
      ∀ x ∈ runTicks future db, x.id = i → x.isActive = false := by
  intro future
  induction future with
  | nil => intro db i h; exact h
  | cons p rest ih =>
      intro db i h
      obtain ⟨pn, pf⟩ := p
      exact ih (tick pn pf db) i (tick_pres_inactive pn pf db i h)

theorem tickStep_of_send_recurring (now : Int) (sendOk : Reminder → Bool)
    (db : List Reminder) (r : Reminder) (rule : String)
    (hsend : sendOk r = true) (hrec : r.isRecurring = true)
    (hrule : r.recurrenceRule = some rule) :
    tickStep now sendOk db r
      = updateRemindAt r.id (calculateNext r.remindAt rule now) now db := by
  unfold tickStep
  rw [if_pos hsend, hrec, hrule]

theorem tickStep_of_send_nonrecurring (now : Int) (sendOk : Reminder → Bool)
    (db : List Reminder) (r : Reminder)
    (hsend : sendOk r = true) (hrec : r.isRecurring = false) :
    tickStep now sendOk db r = deactivate r.id now db := by
  unfold tickStep
  rw [if_pos hsend, hrec]

theorem tickStep_of_fail (now : Int) (sendOk : Reminder → Bool)
    (db : List Reminder) (r : Reminder) (hsend : sendOk r = false) :
    tickStep now sendOk db r = db := by
  unfold tickStep
  rw [if_neg (by rw [hsend]; exact Bool.false_ne_true)]

/-- C1: a successfully delivered recurring reminder with a rule stays
active; its `remindAt` is advanced to the calculator's next occurrence and
its `lastFiredAt` set to the tick's clock. -/
theorem tick_recurring_keeps_active_and_reschedules
    (db : List Reminder) (now : Int) (sendOk : Reminder → Bool) (r : Reminder) (rule : String)
    (hnodup : (db.map Reminder.id).Nodup)
    (hmem : r ∈ getDueReminders now db)
    (hsend : sendOk r = true)
    (hrec : r.isRecurring = true)
    (hrule : r.recurrenceRule = some rule) :
    (tick now sendOk db).find? (fun x => x.id == r.id)
      = some { r with remindAt := calculateNext r.remindAt rule now, lastFiredAt := some now }
    ∧ ({ r with remindAt := calculateNext r.remindAt rule now,
                lastFiredAt := some now } : Reminder).isActive = true := by
  have hact : r.isActive = true := ((mem_getDue now db r).mp hmem).2.2
  obtain ⟨l1, l2, hdue⟩ := List.append_of_mem hmem
  have hdnodup := getDue_ids_nodup now db hnodup
  rw [hdue] at hdnodup
  obtain ⟨hl1, hl2⟩ := nodup_middle_ids l1 l2 r hdnodup
  constructor
  · unfold tick
    rw [hdue, List.foldl_append, List.foldl_cons]
    rw [foldl_tickStep_find?_other now sendOk l2 _ r.id hl2]
    have hfind1 : (l1.foldl (tickStep now sendOk) db).find? (fun x => x.id == r.id)
        = some r := by
      rw [foldl_tickStep_find?_other now sendOk l1 db r.id hl1]
      exact find?_nodup_mem db r hnodup ((mem_getDue now db r).mp hmem).1
    rw [tickStep_of_send_recurring now sendOk _ r rule hsend hrec hrule]
    unfold updateRemindAt
    rw [find?_map_of_id _ (setNextRow_id _ _ _), hfind1, Option.map_some']
    unfold setNextRow
    rw [if_pos rfl]
  · exact hact

/-- C1 witness. -/
theorem tick_recurring_keeps_active_and_reschedules_witness :
    (tick 0 (fun _ => true) [sampleRec]).find? (fun x => x.id == sampleRec.id)
      = some { sampleRec with remindAt := 1440, lastFiredAt := some 0 }
    ∧ ({ sampleRec with remindAt := 1440, lastFiredAt := some 0 } : Reminder).isActive = true := by
  have h := tick_recurring_keeps_active_and_reschedules [sampleRec] 0 (fun _ => true)
    sampleRec "daily" (by decide) (by decide) rfl rfl rfl
  have hcalc : calculateNext sampleRec.remindAt "daily" 0 = 1440 := by decide
  rw [hcalc] at h
  exact h

/-- C4: a successfully delivered non-recurring reminder is deactivated with
`lastFiredAt` set, and no later due query over any sequence of later ticks
ever contains its id again. -/
theorem tick_nonrecurring_deactivates_permanently
    (db : List Reminder) (now : Int) (sendOk : Reminder → Bool) (r : Reminder)
    (hnodup : (db.map Reminder.id).Nodup)
    (hmem : r ∈ getDueReminders now db)
    (hsend : sendOk r = true)
    (hrec : r.isRecurring = false) :
    (tick now sendOk db).find? (fun x => x.id == r.id)
      = some { r with isActive := false, lastFiredAt := some now }
    ∧ ∀ (future : List (Int × (Reminder → Bool))) (later : Int) (x : Reminder),
        x ∈ getDueReminders later (runTicks future (tick now sendOk db)) → x.id ≠ r.id := by
  obtain ⟨l1, l2, hdue⟩ := List.append_of_mem hmem
  have hdnodup := getDue_ids_nodup now db hnodup
  rw [hdue] at hdnodup
  obtain ⟨hl1, hl2⟩ := nodup_middle_ids l1 l2 r hdnodup
  have hfindmain : (tick now sendOk db).find? (fun x => x.id == r.id)
      = some { r with isActive := false, lastFiredAt := some now } := by
    unfold tick
    rw [hdue, List.foldl_append, List.foldl_cons]
    rw [foldl_tickStep_find?_other now sendOk l2 _ r.id hl2]
    have hfind1 : (l1.foldl (tickStep now sendOk) db).find? (fun x => x.id == r.id)
        = some r := by
      rw [foldl_tickStep_find?_other now sendOk l1 db r.id hl1]
      exact find?_nodup_mem db r hnodup ((mem_getDue now db r).mp hmem).1
    rw [tickStep_of_send_nonrecurring now sendOk _ r hsend hrec]
    unfold deactivate
    rw [find?_map_of_id _ (setInactiveRow_id _ _), hfind1, Option.map_some']
    unfold setInactiveRow
    rw [if_pos rfl]
  refine ⟨hfindmain, ?_⟩
  have hnodup1 : ((tick now sendOk db).map Reminder.id).Nodup := by
    rw [tick_map_id]; exact hnodup
  have hstart : ∀ x ∈ tick now sendOk db, x.id = r.id → x.isActive = false := by
    intro x hx hxid
    rw [nodup_find?_unique (tick now sendOk db) r.id _ hnodup1 hfindmain x hx hxid]
  intro future later x hx hxid
  have hxmem := (mem_getDue later _ x).mp hx
  have hfalse := runTicks_pres_inactive future (tick now sendOk db) r.id hstart x hxmem.1 hxid
  rw [hxmem.2.2] at hfalse
  exact Bool.noConfusion hfalse

/-- C4 witness. -/
theorem tick_nonrecurring_deactivates_permanently_witness :
    (tick 0 (fun _ => true) [sampleOnce]).find? (fun x => x.id == sampleOnce.id)
      = some { sampleOnce with isActive := false, lastFiredAt := some 0 }
    ∧ getDueReminders 5 (tick 0 (fun _ => true) [sampleOnce]) = [] := by
  have h := tick_nonrecurring_deactivates_permanently [sampleOnce] 0 (fun _ => true)
    sampleOnce (by decide) (by decide) rfl rfl
  exact ⟨h.1, by decide⟩

/-- C5: a delivery failure leaves the reminder's row exactly as it was, and
it is still due on any later tick. -/
theorem tick_delivery_failure_leaves_state_unchanged
    (db : List Reminder) (now : Int) (sendOk : Reminder → Bool) (r : Reminder)
    (hnodup : (db.map Reminder.id).Nodup)
    (hmem : r ∈ getDueReminders now db)
    (hsend : sendOk r = false) :
    (tick now sendOk db).find? (fun x => x.id == r.id) = some r
    ∧ ∀ later : Int, now ≤ later → r ∈ getDueReminders later (tick now sendOk db) := by
  obtain ⟨l1, l2, hdue⟩ := List.append_of_mem hmem
  have hdnodup := getDue_ids_nodup now db hnodup
  rw [hdue] at hdnodup
  obtain ⟨hl1, hl2⟩ := nodup_middle_ids l1 l2 r hdnodup
  have hprops := (mem_getDue now db r).mp hmem
  have hfindmain : (tick now sendOk db).find? (fun x => x.id == r.id) = some r := by
    unfold tick
    rw [hdue, List.foldl_append, List.foldl_cons]
    rw [foldl_tickStep_find?_other now sendOk l2 _ r.id hl2]
    rw [tickStep_of_fail now sendOk _ r hsend,
      foldl_tickStep_find?_other now sendOk l1 db r.id hl1]
    exact find?_nodup_mem db r hnodup hprops.1
  refine ⟨hfindmain, ?_⟩
  intro later hle
  exact (mem_getDue later _ r).mpr
    ⟨List.mem_of_find?_eq_some hfindmain, le_trans hprops.2.1 hle, hprops.2.2⟩

/-- C5 witness. -/
theorem tick_delivery_failure_leaves_state_unchanged_witness :
    (tick 0 (fun _ => false) [sampleOnce]).find? (fun x => x.id == sampleOnce.id)
      = some sampleOnce
    ∧ sampleOnce ∈ getDueReminders 3 (tick 0 (fun _ => false) [sampleOnce]) := by
  have h := tick_delivery_failure_leaves_state_unchanged [sampleOnce] 0 (fun _ => false)
    sampleOnce (by decide) (by decide) rfl
  exact ⟨h.1, h.2 3 (by norm_num)⟩
